import Mathlib

/-!
Verification of the zj-git-branch plugin core: the branch-line parser
(src/branch.rs), the list-view / filterable-tab state machine (src/tab.rs)
and the event-handling layer (src/main.rs), shallowly embedded in Lean.

Rust strings are modelled as `List Char`; a nom parser over `&str` becomes a
function `List Char → Option (List Char × α)` returning the remaining input
and the parsed value, with `none` for a parse error.
-/

namespace ZjGit

/-- The type of a nom-style parser over characters. -/
abbrev P (α : Type) : Type := List Char → Option (List Char × α)

/-- Characters recognised by nom `multispace0`: space, tab, CR, LF. -/
def isMultispace (c : Char) : Bool := c = ' ' || c = '\t' || c = '\r' || c = '\n'

/-- nom `AsChar::is_space`: space or tab only. -/
def isNomSpace (c : Char) : Bool := c = ' ' || c = '\t'

/-- ASCII hexadecimal digit, as recognised by nom `hex_digit1`. -/
def isHexDigitChar (c : Char) : Bool :=
  ('0' ≤ c && c ≤ '9') || ('a' ≤ c && c ≤ 'f') || ('A' ≤ c && c ≤ 'F')

/-- Rust `char::is_ascii_alphanumeric`. -/
def isAsciiAlphanumeric (c : Char) : Bool :=
  ('0' ≤ c && c ≤ '9') || ('a' ≤ c && c ≤ 'z') || ('A' ≤ c && c ≤ 'Z')

/-- Rust `char::is_ascii_whitespace`: space, tab, LF, form feed, CR. -/
def isAsciiWhitespace (c : Char) : Bool :=
  c = ' ' || c = '\t' || c = '\n' || c = '\x0C' || c = '\r'

/-- Longest prefix satisfying `p`, together with the rest of the input. -/
def spanP (p : Char → Bool) : List Char → List Char × List Char
  | [] => ([], [])
  | c :: cs =>
    if p c then
      let r := spanP p cs
      (c :: r.1, r.2)
    else ([], c :: cs)

/-- nom `complete::char`: match exactly the character `c`. -/
def pchar (c : Char) : P Char := fun s =>
  match s with
  | c' :: rest => if c' = c then some (rest, c) else none
  | [] => none

/-- nom `opt`: always succeeds, wrapping the inner result in an `Option`. -/
def popt {α : Type} (p : P α) : P (Option α) := fun s =>
  match p s with
  | some (r, a) => some (r, some a)
  | none => some (s, none)

/-- nom `map`. -/
def pmap {α β : Type} (f : α → β) (p : P α) : P β := fun s =>
  (p s).map fun ra => (ra.1, f ra.2)

/-- Monadic sequencing of parsers (nom tuple sequencing). -/
def pbind {α β : Type} (p : P α) (f : α → P β) : P β := fun s =>
  (p s).bind fun ra => f ra.2 ra.1

/-- nom `alt` over two alternatives: try `p`, on failure try `q`. -/
def alt2 {α : Type} (p q : P α) : P α := fun s =>
  match p s with
  | some r => some r
  | none => q s

/-- nom `tag`: match a literal sequence of characters. -/
def ptag : List Char → P Unit
  | [], s => some (s, ())
  | c :: cs, c' :: s => if c' = c then ptag cs s else none
  | _ :: _, [] => none

/-- nom `take_while1`: longest non-empty prefix of characters satisfying `p`. -/
def takeWhile1 (p : Char → Bool) : P (List Char) := fun s =>
  match spanP p s with
  | ([], _) => none
  | (t, r) => some (r, t)

/-- nom `take_till1`: non-empty prefix of characters NOT satisfying `p`. -/
def takeTill1 (p : Char → Bool) : P (List Char) := takeWhile1 (fun c => !(p c))

/-- nom `multispace0`: consume any run (possibly empty) of whitespace. -/
def multispace0 : P Unit := fun s => some ((spanP isMultispace s).2, ())

/-- nom `hex_digit1`. -/
def hex_digit1 : P (List Char) := takeWhile1 isHexDigitChar

/-- nom complete `not_line_ending`: everything up to a line ending; a CR not
followed by LF is an error. -/
def not_line_ending : P (List Char) := fun s =>
  match spanP (fun c => !(c = '\r' || c = '\n')) s with
  | (t, '\r' :: rest) => if rest.head? = some '\n' then some ('\r' :: rest, t) else none
  | (t, r) => some (r, t)

/-- Whether the first list is a prefix of the second. -/
def isPrefixOfL : List Char → List Char → Bool
  | [], _ => true
  | _ :: _, [] => false
  | c :: cs, x :: xs => if x = c then isPrefixOfL cs xs else false

/-- Split a string at the first occurrence of `needle`: `some (before, rest)`
with `rest` starting with `needle`, or `none` when `needle` does not occur. -/
def splitAtSub (needle : List Char) : List Char → Option (List Char × List Char)
  | [] => if needle.isEmpty then some ([], []) else none
  | c :: cs =>
    if isPrefixOfL needle (c :: cs) then some ([], c :: cs)
    else
      match splitAtSub needle cs with
      | some (a, b) => some (c :: a, b)
      | none => none

/-- nom `take_until1`: input up to the first occurrence of `needle`; fails when
`needle` is absent or occurs at position 0. -/
def take_until1 (needle : List Char) : P (List Char) := fun s =>
  match splitAtSub needle s with
  | some ([], _) => none
  | some (t, r) => some (r, t)
  | none => none

/-- nom `delimited`: run `a`, then `b`, then `c`, keeping `b`'s output. -/
def delimitedP {α β γ : Type} (a : P α) (b : P β) (c : P γ) : P β :=
  pbind a fun _ => pbind b fun x => pmap (fun _ => x) c

/-- nom `preceded`. -/
def precededP {α β : Type} (a : P α) (b : P β) : P β := pbind a fun _ => b

/-- `ws` from src/branch.rs: allow surrounding whitespace. -/
def ws {α : Type} (p : P α) : P α := delimitedP multispace0 p multispace0

/-- `parse_current` from src/branch.rs: optional `*` marker. -/
def parse_current : P Bool := pmap Option.isSome (popt (pchar '*'))

/-- Characters allowed inside the parenthesized form of `parse_name`. -/
def nameInnerChar (c : Char) : Bool := isAsciiAlphanumeric c || isAsciiWhitespace c

/-- First alternative of `parse_name`: `(` … `)` around alphanumerics and
whitespace. -/
def parenNameAlt : P (List Char) :=
  delimitedP (ptag [ '(' ]) (takeWhile1 nameInnerChar) (ptag [ ')' ])

/-- Second alternative of `parse_name`: a bare token up to a space or tab. -/
def bareNameAlt : P (List Char) := takeTill1 isNomSpace

/-- `parse_name` from src/branch.rs: a parenthesized run of ASCII alphanumerics
and whitespace, or a bare token up to the first space/tab. -/
def parse_name : P (List Char) := alt2 parenNameAlt bareNameAlt

/-- `parse_commit_sha` from src/branch.rs. -/
def parse_commit_sha : P (List Char) := hex_digit1

/-- `parse_commit_message` from src/branch.rs. -/
def parse_commit_message : P (List Char) := not_line_ending

/-- `parse_branch_pointer` from src/branch.rs: literal `-> ` then the rest. -/
def parse_branch_pointer : P (List Char) :=
  precededP (ptag "-> ".data) not_line_ending

/-- `parse_upstream_branch` from src/branch.rs: optional `[` … `]` block. -/
def parse_upstream_branch : P (Option (List Char)) :=
  popt (delimitedP (ptag [ '[' ]) (take_until1 [ ']' ]) (ptag [ ']' ]))

/-- `LocalBranch` from src/branch.rs. -/
structure LocalBranch where
  name : List Char
  current : Bool
  commit_sha : List Char
  upstream_branch : Option (List Char)
  commit_message : List Char
  deriving DecidableEq

/-- `impl FromStr for LocalBranch` (src/branch.rs): sequence the five field
parsers; leftover input after the commit message is ignored. -/
def LocalBranch.fromStr? (s : List Char) : Option LocalBranch :=
  (ws parse_current s).bind fun p1 =>
    (ws parse_name p1.1).bind fun p2 =>
      (ws parse_commit_sha p2.1).bind fun p3 =>
        (ws parse_upstream_branch p3.1).bind fun p4 =>
          (parse_commit_message p4.1).map fun p5 =>
            ⟨p2.2, p1.2, p3.2, p4.2, p5.2⟩

/-- `RemoteBranchRef` from src/branch.rs. -/
inductive RemoteBranchRef where
  | Branch (target : List Char)
  | Commit (sha : List Char) (message : List Char)
  deriving DecidableEq

/-- `RemoteBranch` from src/branch.rs. -/
structure RemoteBranch where
  name : List Char
  reference : RemoteBranchRef
  deriving DecidableEq

/-- First alternative of `RemoteBranch::parse_reference`: hex sha then
verbatim message. -/
def RemoteBranch.commitRefAlt : P RemoteBranchRef :=
  pbind (ws parse_commit_sha) fun sha =>
    pmap (fun message => RemoteBranchRef.Commit sha message) parse_commit_message

/-- Second alternative of `RemoteBranch::parse_reference`: `-> ` pointer. -/
def RemoteBranch.pointerRefAlt : P RemoteBranchRef :=
  pmap RemoteBranchRef.Branch (ws parse_branch_pointer)

/-- `RemoteBranch::parse_reference` from src/branch.rs. -/
def RemoteBranch.parse_reference : P RemoteBranchRef :=
  alt2 RemoteBranch.commitRefAlt RemoteBranch.pointerRefAlt

/-- `impl FromStr for RemoteBranch` (src/branch.rs). -/
def RemoteBranch.fromStr? (s : List Char) : Option RemoteBranch :=
  (ws parse_name s).bind fun p1 =>
    (RemoteBranch.parse_reference p1.1).map fun p2 => ⟨p1.2, p2.2⟩

/-- `UpstreamInfo` as described by the spec's data model (§3). -/
structure UpstreamInfo where
  name : List Char
  relationship : Option (List Char)
  deriving DecidableEq

/-- Modelled from the spec: the code that splits the verbatim upstream
descriptor into `UpstreamInfo { name, relationship }` is not under src/ (the
src/ revision stores the descriptor verbatim and only other revisions define
`UpstreamInfo`). Per spec §4.1(4)/§3 the descriptor is split on a separator
into the upstream name and an optional free-form relationship annotation;
absence of the separator means no relationship. The separator is `": "`, the
form git prints inside `[...]`. -/
def upstreamInfoOfDescriptor (d : List Char) : UpstreamInfo :=
  match splitAtSub (':' :: ' ' :: []) d with
  | some (n, rest) => ⟨n, some (rest.drop 2)⟩
  | none => ⟨d, none⟩

/-! Embedding of src/tab.rs. `usize` arithmetic is modelled with `Nat`
(truncated subtraction matching Rust's `saturating_sub` where the source uses
it), `isize` with `Int`. -/

/-- `Rect` from src/tab.rs. -/
structure Rect where
  x : Nat
  y : Nat
  width : Option Nat
  height : Option Nat
  deriving DecidableEq

/-- `RenderArea` from src/tab.rs. -/
structure RenderArea where
  width : Nat
  height : Nat
  deriving DecidableEq

/-- `RenderArea::input_coordinates`. -/
def RenderArea.input_coordinates (a : RenderArea) : Rect :=
  ⟨1, 2, some (a.width - 3), some 1⟩

/-- `RenderArea::branch_list_coordinates` (Y_PADDING = 1, FOOTER_HEIGHT = 2);
`Option.getD 0` stands for `.unwrap()` on fields that are statically `some`. -/
def RenderArea.branch_list_coordinates (a : RenderArea) : Rect :=
  let ic := a.input_coordinates
  let y := ic.y + ic.height.getD 0 + 1
  ⟨1, y, some (a.width - 3), some (a.height - y - 1 - 2)⟩

/-- `RenderArea::visible_branch_count`. -/
def RenderArea.visible_branch_count (a : RenderArea) : Nat :=
  a.branch_list_coordinates.height.getD 0 - 2

/-- `BranchesView` from src/tab.rs. -/
structure BranchesView (T : Type) where
  branches : List T
  selected_index : Nat
  scroll_offset : Nat
  deriving DecidableEq

/-- `Default for BranchesView`. -/
def BranchesView.default {T : Type} : BranchesView T := ⟨[], 0, 0⟩

/-- `BranchesView::new`. -/
def BranchesView.new {T : Type} (branches : List T) : BranchesView T :=
  ⟨branches, 0, 0⟩

/-- `BranchesView::selected_branch`; the in-range index access
`&self.branches[self.selected_index]` is modelled with `List.get?`. -/
def BranchesView.selected_branch {T : Type} (v : BranchesView T) : Option T :=
  if v.branches.isEmpty then none else v.branches[v.selected_index]?

/-- `BranchesView::offset_selected_index`. -/
def BranchesView.offset_selected_index {T : Type} (offset : Int)
    (v : BranchesView T) : BranchesView T :=
  if 0 < offset then
    let i := min (v.selected_index + offset.toNat) (v.branches.length - 1)
    { v with selected_index := i }
  else if offset < 0 then
    { v with selected_index := v.selected_index - offset.natAbs }
  else v

/-- `BranchesView::scroll_selected_to_view`. -/
def BranchesView.scroll_selected_to_view {T : Type} (render_area : RenderArea)
    (v : BranchesView T) : BranchesView T :=
  if v.selected_index < v.scroll_offset then
    { v with scroll_offset := v.selected_index }
  else if v.scroll_offset + render_area.visible_branch_count < v.selected_index then
    { v with scroll_offset := v.selected_index - render_area.visible_branch_count }
  else v

/-- The `Branch` trait from src/branch.rs: expose a name. -/
class BranchName (T : Type) where
  name : T → List Char

instance : BranchName LocalBranch := ⟨LocalBranch.name⟩

instance : BranchName RemoteBranch := ⟨RemoteBranch.name⟩

/-- `Tab` from src/tab.rs. -/
structure Tab (T : Type) where
  inited : Bool
  input : List Char
  view : BranchesView T
  filtered_view : Option (BranchesView T)

/-- `Default for Tab`. -/
def Tab.default {T : Type} : Tab T := ⟨false, [], BranchesView.default, none⟩

/-- `Tab::current_view`. -/
def Tab.current_view {T : Type} (t : Tab T) : BranchesView T :=
  match t.filtered_view with
  | some filtered_view => filtered_view
  | none => t.view

/-- `Tab::mut_current_view` as a functional update of the active view. -/
def Tab.modifyCurrentView {T : Type} (f : BranchesView T → BranchesView T)
    (t : Tab T) : Tab T :=
  match t.filtered_view with
  | some filtered_view => { t with filtered_view := some (f filtered_view) }
  | none => { t with view := f t.view }

/-- `Tab::select_down`. -/
def Tab.select_down {T : Type} (render_area : Option RenderArea) (t : Tab T) : Tab T :=
  t.modifyCurrentView fun v =>
    let v := v.offset_selected_index 1
    match render_area with
    | some render_area => v.scroll_selected_to_view render_area
    | none => v

/-- `Tab::select_up`. -/
def Tab.select_up {T : Type} (render_area : Option RenderArea) (t : Tab T) : Tab T :=
  t.modifyCurrentView fun v =>
    let v := v.offset_selected_index (-1)
    match render_area with
    | some render_area => v.scroll_selected_to_view render_area
    | none => v

/-- The external fuzzy matcher (nucleo's `Pattern::match_list`): given the
query and the candidate names, return the matching names best-first. The spec
(§2, §6) treats it as an opaque provided service, so it is a parameter here. -/
abbrev Matcher : Type := List Char → List (List Char) → List (List Char)

/-- The `HashMap<&str, &T>` built by `Tab::update_filtered_view`, applied to
one name: `HashMap::from_iter` keeps the last entry for a duplicate key. -/
def lookupByName {T : Type} [BranchName T] (branches : List T)
    (n : List Char) : Option T :=
  (branches.filter fun b => BranchName.name b = n).getLast?

/-- The `visible_branches` computation of `Tab::update_filtered_view`: run the
matcher on the full view's names and map each matched name back to its record
through the name map. The indexing `branch_name_map[branch_name]` cannot fail
for names produced by the matcher from the candidate list; a missing key is
modelled by dropping the entry (`filterMap`). -/
def Tab.visibleBranches {T : Type} [BranchName T] (M : Matcher) (t : Tab T) :
    List T :=
  (M t.input (t.view.branches.map BranchName.name)).filterMap
    (lookupByName t.view.branches)

/-- `Tab::update_filtered_view`. -/
def Tab.update_filtered_view {T : Type} [BranchName T] (M : Matcher)
    (render_area : Option RenderArea) (t : Tab T) : Tab T :=
  let visible_branches : List T := Tab.visibleBranches M t
  match t.filtered_view with
  | some filtered_view =>
    let fv := { filtered_view with branches := visible_branches }
    let fv := if fv.branches.length ≤ fv.selected_index then
        { fv with selected_index := 0 }
      else fv
    let fv := match render_area with
      | some render_area => fv.scroll_selected_to_view render_area
      | none => fv
    { t with filtered_view := some fv }
  | none =>
    let fv := BranchesView.new visible_branches
    let fv := match render_area with
      | some render_area => fv.scroll_selected_to_view render_area
      | none => fv
    { t with filtered_view := some fv }

/-- `Tab::push_to_input`. -/
def Tab.push_to_input {T : Type} [BranchName T] (M : Matcher) (c : Char)
    (render_area : Option RenderArea) (t : Tab T) : Tab T :=
  Tab.update_filtered_view M render_area { t with input := t.input ++ [c] }

/-- `Tab::pop_from_input`. -/
def Tab.pop_from_input {T : Type} [BranchName T] (M : Matcher)
    (render_area : Option RenderArea) (t : Tab T) : Tab T :=
  let input := t.input.dropLast
  if input.isEmpty then { t with input := input, filtered_view := none }
  else Tab.update_filtered_view M render_area { t with input := input }

/-! Embedding of the event-handling slice of src/main.rs. Outbound command
spawning (`run_command` etc.) is an external effect with no bearing on plugin
state, so it is not represented; error-message strings are represented
symbolically by their provenance (`ErrMsg`). -/

/-- `BranchType` from src/main.rs. -/
inductive BranchType where
  | Local
  | Remote
  deriving DecidableEq

/-- The user-visible error message held in `Git::error_message`, represented
by its provenance: the `anyhow` message of the first failing parse (which is a
function of the failing line), or the captured stderr of a failed command. -/
inductive ErrMsg where
  | parseLocalBranchLine (line : List Char)
  | parseRemoteBranchLine (line : List Char)
  | commandStderr (stderr : List Char)
  deriving DecidableEq

/-- The `Git` plugin state from src/main.rs (configuration fields `cwd`,
`open_log_in_floating` and `log_args` only parameterize outbound commands and
are omitted). -/
structure Git where
  branch_type : BranchType
  local_branches_tab : Tab LocalBranch
  remote_branches_tab : Tab RemoteBranch
  error_message : Option ErrMsg

/-- `Default for Git`. -/
def Git.default : Git := ⟨BranchType.Local, Tab.default, Tab.default, none⟩

/-- `stdout.lines().map(|line| line.parse()).collect::<Result<Vec<_>, _>>()`:
stop at the first line that fails to parse and return its error. -/
def collectParsed {α : Type} (parse : List Char → Option α) :
    List (List Char) → Except (List Char) (List α)
  | [] => Except.ok []
  | l :: ls =>
    match parse l with
    | none => Except.error l
    | some a =>
      match collectParsed parse ls with
      | Except.ok rest => Except.ok (a :: rest)
      | Except.error e => Except.error e

/-- Modelled from the spec: `table_state.select_index(i)` in
`Git::successful_command_update` belongs to a tab revision that is not under
src/; per spec §4.2 `select_by` / §4.3 `refresh`, it sets the full view's
selected index to the position of the first record marked current, or 0. -/
def selectIndex {T : Type} (i : Nat) (v : BranchesView T) : BranchesView T :=
  { v with selected_index := i }

/-- `Git::successful_command_update` from src/main.rs. `context` is the value
at key "command" of the command's context map; `stdout_lines` are the UTF-8
lines of the captured stdout. The src/ call sites pass no render area to
`update_filtered_view`. -/
def Git.successful_command_update (M : Matcher) (context : Option (List Char))
    (stdout_lines : List (List Char)) (g : Git) : Bool × Git :=
  if context = some "list_local_branches".data then
    match collectParsed LocalBranch.fromStr? stdout_lines with
    | Except.ok branches =>
      let idx := (branches.findIdx fun b => b.current)
      let idx := if idx = branches.length then 0 else idx
      let tab := g.local_branches_tab
      let view := selectIndex idx tab.view
      let view := { view with branches := branches }
      let tab := { tab with view := view }
      let tab := if tab.input.isEmpty then tab
        else Tab.update_filtered_view M none tab
      (true, { g with local_branches_tab := tab, error_message := none })
    | Except.error l =>
      (true, { g with error_message := some (ErrMsg.parseLocalBranchLine l) })
  else if context = some "list_remote_branches".data then
    match collectParsed RemoteBranch.fromStr? stdout_lines with
    | Except.ok branches =>
      let tab := g.remote_branches_tab
      let tab := { tab with view := { tab.view with branches := branches } }
      let tab := if tab.input.isEmpty then tab
        else Tab.update_filtered_view M none tab
      (true, { g with remote_branches_tab := tab, error_message := none })
    | Except.error l =>
      (true, { g with error_message := some (ErrMsg.parseRemoteBranchLine l) })
  else if context = some "switch".data ∨ context = some "create".data ∨
      context = some "delete".data ∨ context = some "fetch".data then
    (true, g)
  else if context = some "track_remote".data then
    (true, { g with branch_type := BranchType.Local })
  else (false, g)

/-- An inbound `Event::RunCommandResult(exit_status, stdout, stderr, context)`.
Key events are handled by `handle_key_input`, which no claim concerns; they
are outside this embedding. -/
inductive Event where
  | runCommandResult (exit_status : Option Int) (stdout_lines : List (List Char))
      (stderr : List Char) (context : Option (List Char))

/-- The `RunCommandResult` arms of `ZellijPlugin::update` for `Git`
(src/main.rs): exit status `Some(0)` dispatches to
`successful_command_update`; any other `Some` surfaces the stderr; a `None`
exit status matches no arm and falls through to `_ => false`. -/
def Git.update (M : Matcher) (ev : Event) (g : Git) : Bool × Git :=
  match ev with
  | Event.runCommandResult (some code) stdout_lines stderr context =>
    if code = 0 then Git.successful_command_update M context stdout_lines g
    else (true, { g with error_message := some (ErrMsg.commandStderr stderr) })
  | Event.runCommandResult none _ _ _ => (false, g)

/-! Auxiliary definitions for the statements of the claims: the spec's §8
rendering of a record back into the grammar's textual line form, record
well-formedness, view/tab invariants, and tab operation sequences. -/

/-- Modelled from the spec: no renderer exists in src/; spec §4.1/§6 give the
local-line grammar `[*] <name> <sha> [<upstream>] <message>` with fields
separated by whitespace, which this renders with single spaces. -/
def LocalBranch.render (b : LocalBranch) : List Char :=
  (if b.current then '*' :: ' ' :: [] else []) ++ b.name ++ ' ' :: b.commit_sha ++
    (match b.upstream_branch with
      | some u => ' ' :: '[' :: u ++ ']' :: []
      | none => []) ++ ' ' :: b.commit_message

/-- Modelled from the spec: remote-line grammar `<name> <sha> <message>` or
`<name> -> <target>` (spec §4.1/§6), rendered with single spaces. -/
def RemoteBranch.render (b : RemoteBranch) : List Char :=
  match b.reference with
  | RemoteBranchRef.Commit sha message => b.name ++ ' ' :: sha ++ ' ' :: message
  | RemoteBranchRef.Branch target => b.name ++ ' ' :: '-' :: '>' :: ' ' :: target

/-- `true` when the list is empty or its head differs from `c`. -/
def notHead (c : Char) : List Char → Bool
  | [] => true
  | c' :: _ => if c' = c then false else true

/-- Well-formedness of a local record under which rendering is exactly
invertible: the name is a non-empty whitespace-free token not starting with
`(` (nor with `*` when not current), the sha is a non-empty hex run, the
upstream descriptor is non-empty and `]`-free, and the message has no line
ending, no leading whitespace, and no leading `[` when there is no upstream. -/
def LocalBranch.wfb (b : LocalBranch) : Bool :=
  !b.name.isEmpty && b.name.all (fun c => !isMultispace c) &&
  notHead '(' b.name && (b.current || notHead '*' b.name) &&
  !b.commit_sha.isEmpty && b.commit_sha.all isHexDigitChar &&
  (match b.upstream_branch with
    | some u => !u.isEmpty && u.all (fun c => if c = ']' then false else true)
    | none => notHead '[' b.commit_message) &&
  (match b.commit_message.head? with
    | some c => !isMultispace c
    | none => true) &&
  b.commit_message.all (fun c => if c = '\r' then false else if c = '\n' then false else true)

/-- Well-formedness of a remote record under which rendering is exactly
invertible. -/
def RemoteBranch.wfb (b : RemoteBranch) : Bool :=
  !b.name.isEmpty && b.name.all (fun c => !isMultispace c) && notHead '(' b.name &&
  (match b.reference with
    | RemoteBranchRef.Commit sha message =>
      !sha.isEmpty && sha.all isHexDigitChar &&
      (match message.head? with
        | some c => !isMultispace c
        | none => true) &&
      message.all (fun c => if c = '\r' then false else if c = '\n' then false else true)
    | RemoteBranchRef.Branch target =>
      target.all (fun c => if c = '\r' then false else if c = '\n' then false else true))

/-- The spec's ListView invariant (§3): `0 <= selected_index < len` when the
list is non-empty, `selected_index = 0` when it is empty. -/
def viewWF {T : Type} (v : BranchesView T) : Prop :=
  (v.branches = [] → v.selected_index = 0) ∧
  (v.branches ≠ [] → v.selected_index < v.branches.length)

instance {T : Type} [DecidableEq T] (v : BranchesView T) : Decidable (viewWF v) := by
  unfold viewWF
  infer_instance

/-- The weaker selection-safety invariant of claim C10:
`selected_index = 0 ∨ selected_index < len`. -/
def viewSelOK {T : Type} (v : BranchesView T) : Prop :=
  v.selected_index = 0 ∨ v.selected_index < v.branches.length

instance {T : Type} (v : BranchesView T) : Decidable (viewSelOK v) := by
  unfold viewSelOK
  infer_instance

/-- Selection safety for a tab: both the full view and the filtered view
(when present) are selection-safe. -/
def tabSelOK {T : Type} (t : Tab T) : Prop :=
  viewSelOK t.view ∧ ∀ fv, t.filtered_view = some fv → viewSelOK fv

/-- One user-driven tab operation (the tab API of src/tab.rs). -/
inductive TabOp where
  | selectDown (render_area : Option RenderArea)
  | selectUp (render_area : Option RenderArea)
  | push (c : Char) (render_area : Option RenderArea)
  | pop (render_area : Option RenderArea)
  | update (render_area : Option RenderArea)

/-- Apply one tab operation. -/
def applyOp {T : Type} [BranchName T] (M : Matcher) (t : Tab T) : TabOp → Tab T
  | TabOp.selectDown ra => t.select_down ra
  | TabOp.selectUp ra => t.select_up ra
  | TabOp.push c ra => Tab.push_to_input M c ra t
  | TabOp.pop ra => Tab.pop_from_input M ra t
  | TabOp.update ra => Tab.update_filtered_view M ra t

/-- Apply a sequence of tab operations, first one first. -/
def applyOps {T : Type} [BranchName T] (M : Matcher) (ops : List TabOp)
    (t : Tab T) : Tab T :=
  ops.foldl (applyOp M) t

/-- Tab states reachable from `t₀` by `push_to_input`, `pop_from_input` and
`update_filtered_view`, where — as at every call site in src/ —
`update_filtered_view` is only invoked directly while the query is
non-empty. -/
inductive FilterOps {T : Type} [BranchName T] (M : Matcher) (t₀ : Tab T) : Tab T → Prop where
  | nil : FilterOps M t₀ t₀
  | push (c : Char) (ra : Option RenderArea) {t : Tab T} :
      FilterOps M t₀ t → FilterOps M t₀ (Tab.push_to_input M c ra t)
  | pop (ra : Option RenderArea) {t : Tab T} :
      FilterOps M t₀ t → FilterOps M t₀ (Tab.pop_from_input M ra t)
  | update (ra : Option RenderArea) {t : Tab T} :
      FilterOps M t₀ t → t.input ≠ [] → FilterOps M t₀ (Tab.update_filtered_view M ra t)

/-- A trivially contract-conformant matcher (matches every candidate), used to
instantiate witnesses. -/
def matcherId : Matcher := fun _ names => names

/-- The rendered line tail that follows the commit sha of a local record:
optional ` [upstream]`, then the space separator and the message. -/
def upTail : Option (List Char) → List Char → List Char
  | some u, msg => ' ' :: '[' :: (u ++ (']' :: ' ' :: msg))
  | none, msg => ' ' :: msg

/-- The remaining input after the sha field (and its trailing whitespace) has
been consumed: the upstream block when present, then the message. -/
def upRest : Option (List Char) → List Char → List Char
  | some u, msg => '[' :: (u ++ (']' :: ' ' :: msg))
  | none, msg => msg

/-! Helper lemmas. -/

lemma offset_selected_index_pos {T : Type} (v : BranchesView T) (d : Int) (hd : 0 < d) :
    v.offset_selected_index d =
      { v with selected_index := min (v.selected_index + d.toNat) (v.branches.length - 1) } := by
  simp [BranchesView.offset_selected_index, hd]

lemma offset_selected_index_neg {T : Type} (v : BranchesView T) (d : Int) (hd : d < 0) :
    v.offset_selected_index d = { v with selected_index := v.selected_index - d.natAbs } := by
  have h : ¬ 0 < d := by omega
  simp [BranchesView.offset_selected_index, h, hd]

lemma offset_selected_index_zero {T : Type} (v : BranchesView T) :
    v.offset_selected_index 0 = v := by
  simp [BranchesView.offset_selected_index]

lemma scroll_selected_to_view_inv {T : Type} (v : BranchesView T) (ra : RenderArea) :
    (v.scroll_selected_to_view ra).scroll_offset ≤ (v.scroll_selected_to_view ra).selected_index ∧
      (v.scroll_selected_to_view ra).selected_index ≤
        (v.scroll_selected_to_view ra).scroll_offset + ra.visible_branch_count := by
  unfold BranchesView.scroll_selected_to_view
  split_ifs with h1 h2 <;> refine ⟨?_, ?_⟩ <;> dsimp only <;> omega

lemma scroll_selected_to_view_of_inv {T : Type} (v : BranchesView T) (ra : RenderArea)
    (hlo : v.scroll_offset ≤ v.selected_index)
    (hhi : v.selected_index ≤ v.scroll_offset + ra.visible_branch_count) :
    v.scroll_selected_to_view ra = v := by
  unfold BranchesView.scroll_selected_to_view
  rw [if_neg (by omega), if_neg (by omega)]

/-! Claim theorems. -/

/-- C3: for every list view satisfying the ListView invariant and every
integer delta, `offset_selected_index` keeps the records unchanged, keeps the
selection in `[0, len)` when the records are non-empty, is a no-op on an
empty list and for delta = 0, and saturates at both ends of the range. -/
theorem c3_selection_clamp {T : Type} (v : BranchesView T) (delta : Int)
    (h : viewWF v) :
    (v.offset_selected_index delta).branches = v.branches ∧
    (v.branches ≠ [] → (v.offset_selected_index delta).selected_index < v.branches.length) ∧
    (v.branches = [] → v.offset_selected_index delta = v) ∧
    (delta = 0 → v.offset_selected_index delta = v) ∧
    (0 < delta → (v.branches.length : Int) - 1 ≤ v.selected_index + delta →
      (v.offset_selected_index delta).selected_index = v.branches.length - 1) ∧
    (delta < 0 → (v.selected_index : Int) + delta ≤ 0 →
      (v.offset_selected_index delta).selected_index = 0) := by
  obtain ⟨h1, h2⟩ := h
  rcases lt_trichotomy delta 0 with hd | hd | hd
  · rw [offset_selected_index_neg v delta hd]
    refine ⟨rfl, ?_, ?_, ?_, ?_, ?_⟩ <;> dsimp only
    · intro hne
      have := h2 hne
      omega
    · intro he
      have h0 := h1 he
      have : v.selected_index - delta.natAbs = v.selected_index := by omega
      rw [this]
    · intro h0
      omega
    · intro h0
      omega
    · intro _ hle
      omega
  · subst hd
    rw [offset_selected_index_zero]
    refine ⟨rfl, ?_, fun _ => rfl, fun _ => rfl, ?_, ?_⟩
    · intro hne
      exact h2 hne
    · intro h0
      omega
    · intro h0
      omega
  · rw [offset_selected_index_pos v delta hd]
    refine ⟨rfl, ?_, ?_, ?_, ?_, ?_⟩ <;> dsimp only
    · intro hne
      have := List.length_pos.mpr hne
      omega
    · intro he
      have h0 := h1 he
      have hl : v.branches.length = 0 := by rw [he]; rfl
      have : min (v.selected_index + delta.toNat) (v.branches.length - 1) =
          v.selected_index := by omega
      rw [this]
    · intro h0
      omega
    · intro _ hge
      omega
    · intro h0
      omega

/-- C3 witness: a concrete in-range move on a two-element view. -/
theorem c3_selection_clamp_witness :
    viewWF (⟨[0, 1], 0, 0⟩ : BranchesView Nat) ∧
      ((⟨[0, 1], 0, 0⟩ : BranchesView Nat).offset_selected_index 5).selected_index <
        ([0, 1] : List Nat).length :=
  ⟨by decide, (c3_selection_clamp (⟨[0, 1], 0, 0⟩ : BranchesView Nat) 5
    (by decide)).2.1 (by decide)⟩

/-- C4: after `scroll_selected_to_view` the display-window invariant
`scroll_offset ≤ selected_index ≤ scroll_offset + visible_capacity` holds for
every view state and every viewport, and an immediately repeated call with
the same viewport changes nothing. -/
theorem c4_scroll_reconciliation {T : Type} (v : BranchesView T) (ra : RenderArea) :
    (v.scroll_selected_to_view ra).scroll_offset ≤ (v.scroll_selected_to_view ra).selected_index ∧
    (v.scroll_selected_to_view ra).selected_index ≤
      (v.scroll_selected_to_view ra).scroll_offset + ra.visible_branch_count ∧
    (v.scroll_selected_to_view ra).scroll_selected_to_view ra = v.scroll_selected_to_view ra :=
  ⟨(scroll_selected_to_view_inv v ra).1, (scroll_selected_to_view_inv v ra).2,
    scroll_selected_to_view_of_inv (v.scroll_selected_to_view ra) ra
      (scroll_selected_to_view_inv v ra).1 (scroll_selected_to_view_inv v ra).2⟩

/-- C2 (amended): an inbound command result with a non-zero exit status is
treated as failure regardless of the command tag — the captured stderr
becomes the error state and nothing else changes; a missing exit status is
ignored entirely: the event is reported unhandled and the state is unchanged
(no stderr is surfaced). -/
theorem c2_command_result_failure (M : Matcher) (g : Git) (n : Int) (hn : n ≠ 0)
    (stdout_lines : List (List Char)) (stderr : List Char) (context : Option (List Char)) :
    Git.update M (Event.runCommandResult (some n) stdout_lines stderr context) g =
      (true, { g with error_message := some (ErrMsg.commandStderr stderr) }) ∧
    Git.update M (Event.runCommandResult none stdout_lines stderr context) g = (false, g) := by
  refine ⟨?_, rfl⟩
  simp [Git.update, hn]

/-- C2 witness: a concrete failed `switch` command surfaces its stderr. -/
theorem c2_command_result_failure_witness :
    Git.update matcherId
        (Event.runCommandResult (some 1) [] "boom".data (some "switch".data)) Git.default =
      (true, { Git.default with error_message := some (ErrMsg.commandStderr "boom".data) }) ∧
    Git.update matcherId (Event.runCommandResult none [] "boom".data (some "switch".data))
        Git.default = (false, Git.default) :=
  c2_command_result_failure matcherId Git.default 1 (by decide) [] "boom".data
    (some "switch".data)

/-- C2 counterexample: a command result with a missing (absent) exit status is
not treated as failure — the event is dropped unhandled and the captured
stderr is not surfaced as the error state, contrary to the claim. -/
theorem c2_missing_exit_counterexample :
    Git.update matcherId (Event.runCommandResult none [] "boom".data (some "switch".data))
        Git.default = (false, Git.default) ∧
    Git.default.error_message = none :=
  ⟨rfl, rfl⟩

lemma collectParsed_error_of_exists {α : Type} (parse : List Char → Option α) :
    ∀ lines : List (List Char), (∃ l ∈ lines, parse l = none) →
      ∃ l', l' ∈ lines ∧ parse l' = none ∧ collectParsed parse lines = Except.error l'
  | [], h => by simp at h
  | l :: ls, h => by
    cases hp : parse l with
    | none => exact ⟨l, by simp, hp, by simp [collectParsed, hp]⟩
    | some a =>
      have hex : ∃ x ∈ ls, parse x = none := by
        obtain ⟨x, hx, hxp⟩ := h
        rcases List.mem_cons.mp hx with rfl | hx'
        · rw [hp] at hxp
          exact absurd hxp (by simp)
        · exact ⟨x, hx', hxp⟩
      obtain ⟨l', hl', hlp, hcol⟩ := collectParsed_error_of_exists parse ls hex
      exact ⟨l', List.mem_cons_of_mem _ hl', hlp, by simp [collectParsed, hp, hcol]⟩

/-- C1: a listing refresh whose stdout contains a line that fails to parse is
rejected as a whole — for both the local and the remote listing command, the
state is left completely unchanged (tabs, record sets, selections) except
that the first failing line's parse error becomes the sole user-visible error
state. -/
theorem c1_batch_atomicity :
    (∀ (M : Matcher) (g : Git) (lines : List (List Char)),
      (∃ l ∈ lines, LocalBranch.fromStr? l = none) →
      ∃ l', l' ∈ lines ∧ LocalBranch.fromStr? l' = none ∧
        Git.successful_command_update M (some "list_local_branches".data) lines g =
          (true, { g with error_message := some (ErrMsg.parseLocalBranchLine l') })) ∧
    (∀ (M : Matcher) (g : Git) (lines : List (List Char)),
      (∃ l ∈ lines, RemoteBranch.fromStr? l = none) →
      ∃ l', l' ∈ lines ∧ RemoteBranch.fromStr? l' = none ∧
        Git.successful_command_update M (some "list_remote_branches".data) lines g =
          (true, { g with error_message := some (ErrMsg.parseRemoteBranchLine l') })) := by
  constructor
  · intro M g lines h
    obtain ⟨l', h1, h2, hcol⟩ := collectParsed_error_of_exists _ lines h
    refine ⟨l', h1, h2, ?_⟩
    simp only [Git.successful_command_update, if_pos rfl, hcol]
    rw [if_pos trivial]
  · intro M g lines h
    obtain ⟨l', h1, h2, hcol⟩ := collectParsed_error_of_exists _ lines h
    refine ⟨l', h1, h2, ?_⟩
    have hne : ¬ ((some "list_remote_branches".data : Option (List Char)) =
        some "list_local_branches".data) := by decide
    simp only [Git.successful_command_update, if_neg hne, if_pos rfl, hcol]
    rw [if_pos trivial]

/-- C1 witness: a refresh whose only stdout line is empty (unparseable). -/
theorem c1_batch_atomicity_witness :
    ∃ l', l' ∈ [([] : List Char)] ∧ LocalBranch.fromStr? l' = none ∧
      Git.successful_command_update matcherId (some "list_local_branches".data)
          [([] : List Char)] Git.default =
        (true, { Git.default with error_message := some (ErrMsg.parseLocalBranchLine l') }) :=
  c1_batch_atomicity.1 matcherId Git.default [[]] ⟨[], by simp, rfl⟩

/-- C7: the local listing line `"* main  a1b2c3d [origin/main] Initial commit"`
parses to the expected record: name `main`, current, sha `a1b2c3d`, verbatim
upstream descriptor `origin/main` — which splits into upstream name
`origin/main` with no relationship annotation — and message
`Initial commit`. -/
theorem c7_local_scenario :
    LocalBranch.fromStr? "* main  a1b2c3d [origin/main] Initial commit".data =
      some ⟨"main".data, true, "a1b2c3d".data, some "origin/main".data,
        "Initial commit".data⟩ ∧
    upstreamInfoOfDescriptor "origin/main".data = ⟨"origin/main".data, none⟩ :=
  ⟨rfl, rfl⟩

/-- C8: `"origin/HEAD -> origin/main"` parses to a remote record pointing
symbolically at `origin/main`; the commit alternative is tried first, the
pointer alternative only when the commit alternative fails — in particular
whenever the token after the name does not start with a hex digit — and a
line whose reference matches neither alternative is a parse failure. -/
theorem c8_remote_reference_order :
    (RemoteBranch.fromStr? "origin/HEAD -> origin/main".data =
      some ⟨"origin/HEAD".data, RemoteBranchRef.Branch "origin/main".data⟩) ∧
    (∀ s r, RemoteBranch.commitRefAlt s = some r →
      RemoteBranch.parse_reference s = some r) ∧
    (∀ s, RemoteBranch.commitRefAlt s = none →
      RemoteBranch.parse_reference s = RemoteBranch.pointerRefAlt s) ∧
    (∀ s, (∀ c, ((spanP isMultispace s).2).head? = some c → isHexDigitChar c = false) →
      RemoteBranch.commitRefAlt s = none) ∧
    (∀ line s₁ n, ws parse_name line = some (s₁, n) →
      RemoteBranch.parse_reference s₁ = none → RemoteBranch.fromStr? line = none) := by
  refine ⟨rfl, ?_, ?_, ?_, ?_⟩
  · intro s r h
    simp [RemoteBranch.parse_reference, alt2, h]
  · intro s h
    simp [RemoteBranch.parse_reference, alt2, h]
  · intro s h
    have hs2 : hex_digit1 ((spanP isMultispace s).2) = none := by
      cases hs : (spanP isMultispace s).2 with
      | nil => rfl
      | cons c cs =>
        have hc : isHexDigitChar c = false := h c (by rw [hs]; rfl)
        simp [hex_digit1, takeWhile1, spanP, hc]
    simp [RemoteBranch.commitRefAlt, pbind, ws, delimitedP, pmap, multispace0,
      parse_commit_sha, hs2]
  · intro line s₁ n h1 h2
    simp [RemoteBranch.fromStr?, h1, h2]

/-- C8 witness: the commit form wins on `"abc m"`; on `"-> x"` the commit form
fails (non-hex head) and the pointer form is used; `"a ?"` has a name but no
parseable reference and fails. -/
theorem c8_remote_reference_order_witness :
    (RemoteBranch.parse_reference "abc m".data =
      some ([], RemoteBranchRef.Commit "abc".data "m".data)) ∧
    (RemoteBranch.parse_reference "-> x".data = RemoteBranch.pointerRefAlt "-> x".data) ∧
    (RemoteBranch.commitRefAlt [] = none) ∧
    (RemoteBranch.fromStr? "a ?".data = none) :=
  ⟨c8_remote_reference_order.2.1 "abc m".data ([], RemoteBranchRef.Commit "abc".data "m".data)
      (by rfl),
    c8_remote_reference_order.2.2.1 "-> x".data (by rfl),
    c8_remote_reference_order.2.2.2.1 [] (fun c hc => by exact Option.noConfusion hc),
    c8_remote_reference_order.2.2.2.2 "a ?".data "?".data "a".data (by rfl) (by rfl)⟩

lemma spanP_forall (p : Char → Bool) (s : List Char) :
    ∀ c ∈ (spanP p s).1, p c = true := by
  induction s with
  | nil => simp [spanP]
  | cons a as ih =>
    by_cases h : p a
    · intro c hc
      simp [spanP, h] at hc
      rcases hc with rfl | hc
      · exact h
      · exact ih c hc
    · simp [spanP, h]

lemma takeWhile1_spec (p : Char → Bool) {s r t : List Char}
    (h : takeWhile1 p s = some (r, t)) : t ≠ [] ∧ ∀ c ∈ t, p c = true := by
  rcases hs : spanP p s with ⟨a, b⟩
  rw [takeWhile1, hs] at h
  cases a with
  | nil => cases h
  | cons x xs =>
    simp only [Option.some.injEq, Prod.mk.injEq] at h
    obtain ⟨-, hxt⟩ := h
    subst hxt
    refine ⟨by simp, ?_⟩
    intro c hc
    have hall := spanP_forall p s
    rw [hs] at hall
    exact hall c hc

lemma delimitedP_inv {α β γ : Type} {a : P α} {b : P β} {c : P γ}
    {s r : List Char} {x : β} (h : delimitedP a b c s = some (r, x)) :
    ∃ s1 s2, b s1 = some (s2, x) := by
  unfold delimitedP pbind pmap at h
  rcases Option.bind_eq_some.mp h with ⟨ra, h1, h⟩
  rcases Option.bind_eq_some.mp h with ⟨rb, h2, h⟩
  rcases Option.map_eq_some'.mp h with ⟨rc, h3, h4⟩
  obtain ⟨-, hx⟩ := Prod.mk.injEq .. |>.mp h4
  subst hx
  exact ⟨ra.1, rb.1, h2⟩

lemma ws_inv {α : Type} {p : P α} {s r : List Char} {x : α}
    (h : ws p s = some (r, x)) : ∃ s1 s2, p s1 = some (s2, x) := by
  unfold ws at h
  exact delimitedP_inv h

lemma alt2_inv {α : Type} {p q : P α} {s : List Char} {v : List Char × α}
    (h : alt2 p q s = some v) : p s = some v ∨ q s = some v := by
  unfold alt2 at h
  cases h1 : p s with
  | none => rw [h1] at h; exact Or.inr h
  | some w => rw [h1] at h; exact Or.inl h

lemma parse_name_spec {s r n : List Char} (h : parse_name s = some (r, n)) :
    n ≠ [] ∧ ((∀ c ∈ n, nameInnerChar c = true) ∨ (∀ c ∈ n, isNomSpace c = false)) := by
  unfold parse_name at h
  rcases alt2_inv h with h' | h'
  · obtain ⟨s1, s2, hb⟩ := delimitedP_inv h'
    have := takeWhile1_spec nameInnerChar hb
    exact ⟨this.1, Or.inl this.2⟩
  · unfold bareNameAlt takeTill1 at h'
    have := takeWhile1_spec _ h'
    refine ⟨this.1, Or.inr ?_⟩
    intro c hc
    have h2 := this.2 c hc
    simpa using h2

lemma localFromStr_name {s : List Char} {b : LocalBranch}
    (h : LocalBranch.fromStr? s = some b) :
    ∃ s1 r1, parse_name s1 = some (r1, b.name) := by
  unfold LocalBranch.fromStr? at h
  rcases Option.bind_eq_some.mp h with ⟨p1, h1, h⟩
  rcases Option.bind_eq_some.mp h with ⟨p2, h2, h⟩
  rcases Option.bind_eq_some.mp h with ⟨p3, h3, h⟩
  rcases Option.bind_eq_some.mp h with ⟨p4, h4, h⟩
  rcases Option.map_eq_some'.mp h with ⟨p5, h5, hb⟩
  subst hb
  obtain ⟨w1, w2, hn⟩ := ws_inv h2
  exact ⟨w1, w2, hn⟩

lemma remoteFromStr_name {s : List Char} {b : RemoteBranch}
    (h : RemoteBranch.fromStr? s = some b) :
    ∃ s1 r1, parse_name s1 = some (r1, b.name) := by
  unfold RemoteBranch.fromStr? at h
  rcases Option.bind_eq_some.mp h with ⟨p1, h1, h⟩
  rcases Option.map_eq_some'.mp h with ⟨p2, h2, hb⟩
  subst hb
  obtain ⟨w1, w2, hn⟩ := ws_inv h1
  exact ⟨w1, w2, hn⟩

/-- C6 (amended): every accepted local or remote line yields a non-empty name
that is either the contents of a parenthesized token — ASCII alphanumerics and
whitespace, so it MAY contain embedded spaces — or a bare token free of spaces
and tabs. -/
theorem c6_parsed_name :
    (∀ s b, LocalBranch.fromStr? s = some b →
      b.name ≠ [] ∧ ((∀ c ∈ b.name, nameInnerChar c = true) ∨
        (∀ c ∈ b.name, isNomSpace c = false))) ∧
    (∀ s b, RemoteBranch.fromStr? s = some b →
      b.name ≠ [] ∧ ((∀ c ∈ b.name, nameInnerChar c = true) ∨
        (∀ c ∈ b.name, isNomSpace c = false))) := by
  constructor
  · intro s b h
    obtain ⟨s1, r1, hn⟩ := localFromStr_name h
    exact parse_name_spec hn
  · intro s b h
    obtain ⟨s1, r1, hn⟩ := remoteFromStr_name h
    exact parse_name_spec hn

/-- C6 witness: the name of the parsed scenario line is non-empty and
whitespace-free. -/
theorem c6_parsed_name_witness :
    ("main".data : List Char) ≠ [] ∧ ((∀ c ∈ "main".data, nameInnerChar c = true) ∨
      (∀ c ∈ "main".data, isNomSpace c = false)) :=
  c6_parsed_name.1 "* main  a1b2c3d [origin/main] Initial commit".data
    ⟨"main".data, true, "a1b2c3d".data, some "origin/main".data, "Initial commit".data⟩
    (by rfl)

/-- C6 counterexample: the line `"(no branch) abc hello"` is accepted and its
record's name `"no branch"` contains an embedded space, contradicting the
claim that accepted names never contain embedded whitespace. -/
theorem c6_parsed_name_counterexample :
    LocalBranch.fromStr? "(no branch) abc hello".data =
      some ⟨"no branch".data, false, "abc".data, none, "hello".data⟩ ∧
    ' ' ∈ "no branch".data :=
  ⟨by rfl, by decide⟩

lemma scroll_selected_index {T : Type} (v : BranchesView T) (ra : RenderArea) :
    (v.scroll_selected_to_view ra).selected_index = v.selected_index := by
  unfold BranchesView.scroll_selected_to_view
  split_ifs <;> rfl

lemma scroll_branches {T : Type} (v : BranchesView T) (ra : RenderArea) :
    (v.scroll_selected_to_view ra).branches = v.branches := by
  unfold BranchesView.scroll_selected_to_view
  split_ifs <;> rfl

lemma viewSelOK_scroll {T : Type} {v : BranchesView T} (ra : RenderArea)
    (h : viewSelOK v) : viewSelOK (v.scroll_selected_to_view ra) := by
  unfold viewSelOK at *
  rw [scroll_selected_index, scroll_branches]
  exact h

lemma viewSelOK_offset {T : Type} {v : BranchesView T} (d : Int)
    (h : viewSelOK v) : viewSelOK (v.offset_selected_index d) := by
  unfold viewSelOK at *
  rcases lt_trichotomy d 0 with hd | hd | hd
  · rw [offset_selected_index_neg v d hd]
    dsimp only
    omega
  · subst hd
    rw [offset_selected_index_zero]
    exact h
  · rw [offset_selected_index_pos v d hd]
    dsimp only
    omega

lemma update_filtered_view_view {T : Type} [BranchName T] (M : Matcher)
    (ra : Option RenderArea) (t : Tab T) :
    (Tab.update_filtered_view M ra t).view = t.view := by
  unfold Tab.update_filtered_view
  cases t.filtered_view <;> rfl

lemma update_filtered_view_input {T : Type} [BranchName T] (M : Matcher)
    (ra : Option RenderArea) (t : Tab T) :
    (Tab.update_filtered_view M ra t).input = t.input := by
  unfold Tab.update_filtered_view
  cases t.filtered_view <;> rfl

lemma update_filtered_view_spec {T : Type} [BranchName T] (M : Matcher)
    (ra : Option RenderArea) (t : Tab T) :
    ∃ fv, (Tab.update_filtered_view M ra t).filtered_view = some fv ∧
      fv.branches = Tab.visibleBranches M t ∧ viewSelOK fv := by
  unfold Tab.update_filtered_view
  cases hfv : t.filtered_view with
  | none =>
    cases ra with
    | none => exact ⟨_, rfl, rfl, Or.inl rfl⟩
    | some ra' =>
      refine ⟨_, rfl, scroll_branches _ _, ?_⟩
      unfold viewSelOK
      rw [scroll_selected_index]
      exact Or.inl rfl
  | some fv0 =>
    cases ra with
    | none =>
      dsimp only
      split_ifs with hle
      · exact ⟨_, rfl, rfl, Or.inl rfl⟩
      · refine ⟨_, rfl, rfl, Or.inr ?_⟩
        dsimp only
        omega
    | some ra' =>
      dsimp only
      split_ifs with hle
      · refine ⟨_, rfl, scroll_branches _ _, ?_⟩
        unfold viewSelOK
        rw [scroll_selected_index]
        exact Or.inl rfl
      · refine ⟨_, rfl, scroll_branches _ _, ?_⟩
        unfold viewSelOK
        rw [scroll_selected_index, scroll_branches]
        dsimp only
        omega

lemma tabSelOK_modifyCurrentView {T : Type} {t : Tab T}
    {f : BranchesView T → BranchesView T}
    (hf : ∀ v, viewSelOK v → viewSelOK (f v)) (h : tabSelOK t) :
    tabSelOK (Tab.modifyCurrentView f t) := by
  obtain ⟨hv, hfv⟩ := h
  unfold Tab.modifyCurrentView
  cases hc : t.filtered_view with
  | none =>
    refine ⟨hf _ hv, ?_⟩
    intro fv h'
    exact Option.noConfusion h'
  | some fv0 =>
    refine ⟨hv, ?_⟩
    intro fv h'
    have h'' : some (f fv0) = some fv := h'
    injection h'' with h''
    subst h''
    exact hf _ (hfv fv0 hc)

lemma tabSelOK_update {T : Type} [BranchName T] (M : Matcher)
    (ra : Option RenderArea) {t : Tab T} (hview : viewSelOK t.view) :
    tabSelOK (Tab.update_filtered_view M ra t) := by
  obtain ⟨fv, hfv, hbr, hok⟩ := update_filtered_view_spec M ra t
  constructor
  · rw [update_filtered_view_view]
    exact hview
  · intro fv' h'
    rw [hfv] at h'
    injection h' with h'
    subst h'
    exact hok

lemma tabSelOK_applyOp {T : Type} [BranchName T] (M : Matcher) {t : Tab T}
    (op : TabOp) (h : tabSelOK t) : tabSelOK (applyOp M t op) := by
  have hstep : ∀ (d : Int) (ra : Option RenderArea) (v : BranchesView T),
      viewSelOK v → viewSelOK
        (match ra with
          | some ra => (v.offset_selected_index d).scroll_selected_to_view ra
          | none => v.offset_selected_index d) := by
    intro d ra v hv
    cases ra with
    | none => exact viewSelOK_offset d hv
    | some ra' => exact viewSelOK_scroll ra' (viewSelOK_offset d hv)
  cases op with
  | selectDown ra => exact tabSelOK_modifyCurrentView (hstep 1 ra) h
  | selectUp ra => exact tabSelOK_modifyCurrentView (hstep (-1) ra) h
  | push c ra => exact tabSelOK_update M ra h.1
  | pop ra =>
    simp only [applyOp, Tab.pop_from_input]
    split_ifs with he
    · exact ⟨h.1, fun fv h' => Option.noConfusion h'⟩
    · exact tabSelOK_update M ra h.1
  | update ra => exact tabSelOK_update M ra h.1

lemma tabSelOK_applyOps {T : Type} [BranchName T] (M : Matcher)
    (ops : List TabOp) {t : Tab T} (h : tabSelOK t) :
    tabSelOK (applyOps M ops t) := by
  induction ops generalizing t with
  | nil => exact h
  | cons op ops ih => exact ih (tabSelOK_applyOp M op h)

lemma viewSelOK_current_view {T : Type} {t : Tab T} (h : tabSelOK t) :
    viewSelOK t.current_view := by
  unfold Tab.current_view
  cases hc : t.filtered_view with
  | none => exact h.1
  | some fv => exact h.2 fv hc

lemma selected_branch_none_iff {T : Type} {v : BranchesView T} (h : viewSelOK v) :
    (v.selected_branch = none ↔ v.branches = []) := by
  unfold BranchesView.selected_branch
  cases hb : v.branches with
  | nil => simp
  | cons x xs =>
    have hlt : v.selected_index < v.branches.length := by
      rcases h with h0 | hlt
      · rw [h0, hb]
        simp
      · exact hlt
    rw [hb] at hlt
    simp [List.getElem?_eq_getElem hlt]

lemma lookupByName_mem {T : Type} [BranchName T] {branches : List T}
    {n : List Char} {b : T} (h : lookupByName branches n = some b) :
    b ∈ branches := by
  unfold lookupByName at h
  have hmem : b ∈ (branches.filter fun x => BranchName.name x = n).getLast? :=
    Option.mem_def.mpr h
  obtain ⟨hne, rfl⟩ := List.mem_getLast?_eq_getLast hmem
  exact List.mem_of_mem_filter (List.getLast_mem hne)

lemma update_filtered_view_subset {T : Type} [BranchName T] (M : Matcher)
    (ra : Option RenderArea) {t : Tab T} {fv : BranchesView T} {b : T}
    (hfv : (Tab.update_filtered_view M ra t).filtered_view = some fv)
    (hb : b ∈ fv.branches) :
    BranchName.name b ∈ t.view.branches.map BranchName.name := by
  obtain ⟨fv', hfv', hbr, -⟩ := update_filtered_view_spec M ra t
  rw [hfv'] at hfv
  injection hfv with hfv
  subst hfv
  rw [hbr] at hb
  unfold Tab.visibleBranches at hb
  obtain ⟨n, hn, hlook⟩ := List.mem_filterMap.mp hb
  exact List.mem_map_of_mem _ (lookupByName_mem hlook)

/-- C10: from any selection-safe tab state (in particular the default tab),
every sequence of `select_down` / `select_up` / `push_to_input` /
`pop_from_input` / `update_filtered_view` keeps both the full view and the
filtered view (when present) selection-safe
(`selected_index = 0 ∨ selected_index < len`), and `selected_branch` on the
active view is `none` exactly when that view's record list is empty (so the
selection index never reads out of bounds). -/
theorem c10_selection_safety {T : Type} [BranchName T] (M : Matcher)
    (ops : List TabOp) (t : Tab T) (h : tabSelOK t) :
    tabSelOK (applyOps M ops t) ∧
    ((applyOps M ops t).current_view.selected_branch = none ↔
      (applyOps M ops t).current_view.branches = []) := by
  have hall := tabSelOK_applyOps M ops h
  exact ⟨hall, selected_branch_none_iff (viewSelOK_current_view hall)⟩

/-- C10 witness: one `select_down` then a filter keystroke on a concrete
one-record tab. -/
theorem c10_selection_safety_witness :
    tabSelOK (applyOps matcherId [TabOp.selectDown none, TabOp.push 'm' none]
      (Tab.default : Tab LocalBranch)) ∧
    ((applyOps matcherId [TabOp.selectDown none, TabOp.push 'm' none]
        (Tab.default : Tab LocalBranch)).current_view.selected_branch = none ↔
      (applyOps matcherId [TabOp.selectDown none, TabOp.push 'm' none]
        (Tab.default : Tab LocalBranch)).current_view.branches = []) :=
  c10_selection_safety matcherId [TabOp.selectDown none, TabOp.push 'm' none]
    Tab.default ⟨Or.inl rfl, fun _ h' => Option.noConfusion h'⟩

/-- C5 (amended): starting from any tab with an empty query and no filtered
view (in particular the default tab), along every sequence of
`push_to_input` / `pop_from_input` / `update_filtered_view` operations in
which `update_filtered_view` is only invoked directly while the query is
non-empty (as at every call site in src/), the filtered view exists iff the
query is non-empty, and its record set is always a subset by name of the
full view's record set. -/
theorem c5_filter_narrowing {T : Type} [BranchName T] (M : Matcher)
    (t₀ t : Tab T) (h0i : t₀.input = []) (h0f : t₀.filtered_view = none)
    (h : FilterOps M t₀ t) :
    (t.filtered_view = none ↔ t.input = []) ∧
    (∀ fv, t.filtered_view = some fv → ∀ b ∈ fv.branches,
      BranchName.name b ∈ t.view.branches.map BranchName.name) := by
  induction h with
  | nil =>
    constructor
    · rw [h0i, h0f]
      simp
    · intro fv hfv
      rw [h0f] at hfv
      cases hfv
  | push c ra ht ih =>
    rename_i t1
    unfold Tab.push_to_input
    constructor
    · obtain ⟨fv, hfv, -, -⟩ :=
        update_filtered_view_spec M ra { t1 with input := t1.input ++ [c] }
      constructor
      · intro hnone
        rw [hfv] at hnone
        cases hnone
      · intro hinp
        rw [update_filtered_view_input] at hinp
        simp at hinp
    · intro fv hfv b hb
      have := update_filtered_view_subset M ra hfv hb
      rw [update_filtered_view_view]
      exact this
  | pop ra ht ih =>
    rename_i t1
    simp only [Tab.pop_from_input]
    split_ifs with he
    · constructor
      · simp [List.isEmpty_iff.mp he]
      · intro fv hfv
        cases hfv
    · constructor
      · obtain ⟨fv, hfv, -, -⟩ :=
          update_filtered_view_spec M ra { t1 with input := t1.input.dropLast }
        constructor
        · intro hnone
          rw [hfv] at hnone
          cases hnone
        · intro hinp
          rw [update_filtered_view_input] at hinp
          rw [List.isEmpty_iff] at he
          exact absurd hinp he
      · intro fv hfv b hb
        have := update_filtered_view_subset M ra hfv hb
        rw [update_filtered_view_view]
        exact this
  | update ra ht hne ih =>
    rename_i t1
    constructor
    · obtain ⟨fv, hfv, -, -⟩ := update_filtered_view_spec M ra t1
      constructor
      · intro hnone
        rw [hfv] at hnone
        cases hnone
      · intro hinp
        rw [update_filtered_view_input] at hinp
        exact absurd hinp hne
    · intro fv hfv b hb
      have := update_filtered_view_subset M ra hfv hb
      rw [update_filtered_view_view]
      exact this

/-- C5 witness: typing one character from the default tab. -/
theorem c5_filter_narrowing_witness :
    ((Tab.push_to_input matcherId 'a' none (Tab.default : Tab LocalBranch)).filtered_view =
        none ↔
      (Tab.push_to_input matcherId 'a' none (Tab.default : Tab LocalBranch)).input = []) ∧
    (∀ fv, (Tab.push_to_input matcherId 'a' none
        (Tab.default : Tab LocalBranch)).filtered_view = some fv →
      ∀ b ∈ fv.branches, BranchName.name b ∈
        (Tab.push_to_input matcherId 'a' none
          (Tab.default : Tab LocalBranch)).view.branches.map BranchName.name) :=
  c5_filter_narrowing matcherId Tab.default _ rfl rfl
    (FilterOps.push 'a' none FilterOps.nil)

/-- C5 counterexample: the claim as stated also admits the operation sequence
consisting of a bare `update_filtered_view` on the default tab; after it the
query is still empty yet a filtered view exists, so "filtered view exists iff
the query is non-empty" fails for unguarded update sequences. -/
theorem c5_filter_narrowing_counterexample :
    (applyOps matcherId [TabOp.update none] (Tab.default : Tab LocalBranch)).input = [] ∧
    (applyOps matcherId [TabOp.update none]
      (Tab.default : Tab LocalBranch)).filtered_view ≠ none := by
  constructor
  · rfl
  · intro h
    exact Option.noConfusion h

/-! Equation lemmas for running the embedded parsers on rendered input. -/

lemma head?_mem_list {l : List Char} {c : Char} (h : l.head? = some c) : c ∈ l := by
  cases l with
  | nil => cases h
  | cons x xs =>
    injection h with h
    subst h
    exact List.mem_cons_self x xs

lemma head?_append_left {a b : List Char} (h : a ≠ []) : (a ++ b).head? = a.head? := by
  cases a with
  | nil => exact absurd rfl h
  | cons x xs => rfl

lemma isMultispace_iff (c : Char) :
    isMultispace c = true ↔ c = ' ' ∨ c = '\t' ∨ c = '\r' ∨ c = '\n' := by
  simp only [isMultispace, Bool.or_eq_true, decide_eq_true_eq]
  tauto

lemma not_multi_of_hex {c : Char} (h : isHexDigitChar c = true) :
    isMultispace c = false := by
  cases hm : isMultispace c
  · rfl
  · rcases (isMultispace_iff c).mp hm with rfl | rfl | rfl | rfl <;>
      exact absurd h (by decide)

lemma not_nomSpace_of_not_multi {c : Char} (h : isMultispace c = false) :
    isNomSpace c = false := by
  cases hs : isNomSpace c
  · rfl
  · have : c = ' ' ∨ c = '\t' := by
      simpa [isNomSpace, Bool.or_eq_true, decide_eq_true_eq] using hs
    rcases this with rfl | rfl <;> exact absurd h (by decide)

lemma spanP_append_of (p : Char → Bool) {a b : List Char}
    (ha : ∀ c ∈ a, p c = true) (hb : ∀ c, b.head? = some c → p c = false) :
    spanP p (a ++ b) = (a, b) := by
  induction a with
  | nil =>
    simp only [List.nil_append]
    cases b with
    | nil => rfl
    | cons x xs =>
      have := hb x rfl
      simp [spanP, this]
  | cons x xs ih =>
    have hx : p x = true := ha x (by simp)
    have ih' := ih fun c hc => ha c (by simp [hc])
    simp [spanP, hx, ih']

lemma multispace0_eq_self {s : List Char}
    (h : ∀ c, s.head? = some c → isMultispace c = false) :
    multispace0 s = some (s, ()) := by
  have h0 := spanP_append_of isMultispace (a := ([] : List Char)) (b := s) (by simp) h
  rw [List.nil_append] at h0
  unfold multispace0
  rw [h0]

lemma multispace0_space_cons {s : List Char}
    (h : ∀ c, s.head? = some c → isMultispace c = false) :
    multispace0 (' ' :: s) = some (s, ()) := by
  have h0 := spanP_append_of isMultispace (a := [' ']) (b := s) (by decide) h
  unfold multispace0
  rw [show (' ' :: s) = [' '] ++ s from rfl, h0]

lemma takeWhile1_append (p : Char → Bool) {a b : List Char} (hne : a ≠ [])
    (ha : ∀ c ∈ a, p c = true) (hb : ∀ c, b.head? = some c → p c = false) :
    takeWhile1 p (a ++ b) = some (b, a) := by
  unfold takeWhile1
  rw [spanP_append_of p ha hb]
  cases a with
  | nil => exact absurd rfl hne
  | cons x xs => rfl

lemma takeWhile1_none {p : Char → Bool} {s : List Char}
    (h : ∀ c, s.head? = some c → p c = false) : takeWhile1 p s = none := by
  have h0 := spanP_append_of p (a := ([] : List Char)) (b := s) (by simp) h
  rw [List.nil_append] at h0
  unfold takeWhile1
  rw [h0]

lemma ptag_append (t r : List Char) : ptag t (t ++ r) = some (r, ()) := by
  induction t with
  | nil => rfl
  | cons c cs ih => simp [ptag, ih]

lemma ptag_single_of_head_ne {c : Char} {s : List Char} (h : s.head? ≠ some c) :
    ptag [c] s = none := by
  cases s with
  | nil => rfl
  | cons x xs =>
    unfold ptag
    rw [if_neg]
    intro he
    exact h (by rw [he]; rfl)

lemma not_line_ending_of {m : List Char} (hr : '\r' ∉ m) (hn : '\n' ∉ m) :
    not_line_ending m = some ([], m) := by
  have h0 := spanP_append_of (fun c => !(c = '\r' || c = '\n')) (a := m) (b := [])
    (fun c hc => by
      have h1 : ¬ (c = '\r') := fun h => hr (h ▸ hc)
      have h2 : ¬ (c = '\n') := fun h => hn (h ▸ hc)
      simp [h1, h2])
    (by simp)
  rw [List.append_nil] at h0
  unfold not_line_ending
  rw [h0]

lemma splitAtSub_single {u r : List Char} {c : Char} (hc : c ∉ u) :
    splitAtSub [c] (u ++ c :: r) = some (u, c :: r) := by
  induction u with
  | nil =>
    simp only [List.nil_append]
    unfold splitAtSub
    rw [if_pos]
    simp [isPrefixOfL]
  | cons x xs ih =>
    have hx : ¬ (x = c) := fun h => hc (by rw [h]; exact List.mem_cons_self c xs)
    have ih' := ih fun h => hc (List.mem_cons_of_mem _ h)
    rw [List.cons_append]
    simp only [splitAtSub]
    rw [if_neg (by simp [isPrefixOfL, hx]), ih']

lemma take_until1_close {u r : List Char} (hu : u ≠ []) (hc : ']' ∉ u) :
    take_until1 [ ']' ] (u ++ ']' :: r) = some (']' :: r, u) := by
  unfold take_until1
  rw [splitAtSub_single hc]
  cases u with
  | nil => exact absurd rfl hu
  | cons x xs => rfl

lemma pchar_cons_self (c : Char) (r : List Char) : pchar c (c :: r) = some (r, c) := by
  simp [pchar]

lemma pchar_of_head_ne {c : Char} {s : List Char} (h : s.head? ≠ some c) :
    pchar c s = none := by
  cases s with
  | nil => rfl
  | cons x xs =>
    show (if x = c then some (xs, c) else none) = none
    rw [if_neg]
    intro he
    exact h (by rw [he]; rfl)

lemma ws_step {α : Type} (p : P α) {s s₁ r₁ r₂ : List Char} {a : α}
    (h1 : multispace0 s = some (s₁, ())) (h2 : p s₁ = some (r₁, a))
    (h3 : multispace0 r₁ = some (r₂, ())) : ws p s = some (r₂, a) := by
  simp [ws, delimitedP, pbind, pmap, h1, h2, h3]

lemma ws_fail {α : Type} (p : P α) {s s₁ : List Char}
    (h1 : multispace0 s = some (s₁, ())) (h2 : p s₁ = none) : ws p s = none := by
  simp [ws, delimitedP, pbind, h1, h2]

lemma delimitedP_step {α β γ : Type} (a : P α) (b : P β) (c : P γ)
    {s s1 s2 s3 : List Char} {x1 : α} {x : β} {x3 : γ}
    (h1 : a s = some (s1, x1)) (h2 : b s1 = some (s2, x))
    (h3 : c s2 = some (s3, x3)) : delimitedP a b c s = some (s3, x) := by
  simp [delimitedP, pbind, pmap, h1, h2, h3]

lemma delimitedP_fail_first {α β γ : Type} (a : P α) (b : P β) (c : P γ)
    {s : List Char} (h : a s = none) : delimitedP a b c s = none := by
  simp [delimitedP, pbind, h]

lemma popt_of_some {α : Type} (p : P α) {s r : List Char} {a : α}
    (h : p s = some (r, a)) : popt p s = some (r, some a) := by
  simp [popt, h]

lemma popt_of_none {α : Type} (p : P α) {s : List Char} (h : p s = none) :
    popt p s = some (s, none) := by
  simp [popt, h]

lemma pmap_of_some {α β : Type} (f : α → β) (p : P α) {s r : List Char} {a : α}
    (h : p s = some (r, a)) : pmap f p s = some (r, f a) := by
  simp [pmap, h]

lemma pbind_of_some {α β : Type} (p : P α) (f : α → P β) {s r : List Char} {a : α}
    (h : p s = some (r, a)) : pbind p f s = f a r := by
  simp [pbind, h]

lemma pbind_of_none {α β : Type} (p : P α) (f : α → P β) {s : List Char}
    (h : p s = none) : pbind p f s = none := by
  simp [pbind, h]

lemma alt2_of_some {α : Type} {p q : P α} {s : List Char} {v : List Char × α}
    (h : p s = some v) : alt2 p q s = some v := by
  simp [alt2, h]

lemma alt2_of_none {α : Type} {p q : P α} {s : List Char} (h : p s = none) :
    alt2 p q s = q s := by
  simp [alt2, h]

lemma notHead_spec {c : Char} {l : List Char} (h : notHead c l = true) :
    l.head? ≠ some c := by
  cases l with
  | nil => simp
  | cons x xs =>
    intro he
    injection he with he
    rw [he] at h
    simp [notHead] at h

lemma head_cons_not_multi {x : Char} (hx : isMultispace x = false) (xs : List Char) :
    ∀ c, (x :: xs).head? = some c → isMultispace c = false := by
  intro c hc
  have hc' : some x = some c := hc
  injection hc' with hc'
  subst hc'
  exact hx

lemma localwf_unpack {n : List Char} {cur : Bool} {sha : List Char}
    {up : Option (List Char)} {msg : List Char}
    (h : (LocalBranch.mk n cur sha up msg).wfb = true) :
    n ≠ [] ∧ (∀ c ∈ n, isMultispace c = false) ∧ n.head? ≠ some '(' ∧
    (cur = false → n.head? ≠ some '*') ∧ sha ≠ [] ∧
    (∀ c ∈ sha, isHexDigitChar c = true) ∧
    (∀ u, up = some u → u ≠ [] ∧ ']' ∉ u) ∧ (up = none → msg.head? ≠ some '[') ∧
    (∀ c, msg.head? = some c → isMultispace c = false) ∧ '\r' ∉ msg ∧ '\n' ∉ msg := by
  simp only [LocalBranch.wfb, Bool.and_eq_true] at h
  obtain ⟨⟨⟨⟨⟨⟨⟨⟨h1, h2⟩, h3⟩, h4⟩, h5⟩, h6⟩, h7⟩, h8⟩, h9⟩ := h
  refine ⟨by simpa using h1, ?_, notHead_spec h3, ?_, by simpa using h5, ?_, ?_, ?_, ?_, ?_, ?_⟩
  · intro c hc
    simpa using List.all_eq_true.mp h2 c hc
  · intro hc
    subst hc
    exact notHead_spec (by simpa using h4)
  · intro c hc
    exact List.all_eq_true.mp h6 c hc
  · intro u hu
    subst hu
    simp only [Bool.and_eq_true] at h7
    obtain ⟨ha, hb⟩ := h7
    refine ⟨by simpa using ha, ?_⟩
    intro hmem
    have := List.all_eq_true.mp hb ']' hmem
    simp at this
  · intro hu
    subst hu
    exact notHead_spec h7
  · intro c hc
    rw [hc] at h8
    simpa using h8
  · intro hmem
    have := List.all_eq_true.mp h9 '\r' hmem
    simp at this
  · intro hmem
    have := List.all_eq_true.mp h9 '\n' hmem
    simp at this

lemma ws_parse_name_step {n Y : List Char} (hn : n ≠ [])
    (hnm : ∀ c ∈ n, isMultispace c = false) (hnp : n.head? ≠ some '(')
    (hY : ∀ c, Y.head? = some c → isMultispace c = false) :
    ws parse_name (n ++ ' ' :: Y) = some (Y, n) := by
  have hhead : ∀ c, (n ++ ' ' :: Y).head? = some c → isMultispace c = false := by
    rw [head?_append_left hn]
    intro c hc
    exact hnm c (head?_mem_list hc)
  have hparen : parenNameAlt (n ++ ' ' :: Y) = none := by
    refine delimitedP_fail_first _ _ _ (ptag_single_of_head_ne ?_)
    rw [head?_append_left hn]
    exact hnp
  have hbare : bareNameAlt (n ++ ' ' :: Y) = some (' ' :: Y, n) := by
    refine takeWhile1_append _ hn ?_ ?_
    · intro c hc
      simp [not_nomSpace_of_not_multi (hnm c hc)]
    · intro c hc
      have hc' : some ' ' = some c := hc
      injection hc' with hc'
      subst hc'
      decide
  have hname : parse_name (n ++ ' ' :: Y) = some (' ' :: Y, n) := by
    unfold parse_name
    rw [alt2_of_none hparen]
    exact hbare
  exact ws_step parse_name (multispace0_eq_self hhead) hname (multispace0_space_cons hY)

lemma local_tail_parse (n sha msg : List Char) (up : Option (List Char))
    (hn : n ≠ []) (hnm : ∀ c ∈ n, isMultispace c = false) (hnp : n.head? ≠ some '(')
    (hsha : sha ≠ []) (hhex : ∀ c ∈ sha, isHexDigitChar c = true)
    (hup : ∀ u, up = some u → u ≠ [] ∧ ']' ∉ u)
    (hupn : up = none → msg.head? ≠ some '[')
    (hmsgh : ∀ c, msg.head? = some c → isMultispace c = false)
    (hr : '\r' ∉ msg) (hnl : '\n' ∉ msg) :
    ws parse_name (n ++ ' ' :: (sha ++ upTail up msg)) =
      some (sha ++ upTail up msg, n) ∧
    ws parse_commit_sha (sha ++ upTail up msg) = some (upRest up msg, sha) ∧
    ws parse_upstream_branch (upRest up msg) = some (msg, up) ∧
    parse_commit_message msg = some ([], msg) := by
  have hshahead : ∀ c, (sha ++ upTail up msg).head? = some c → isMultispace c = false := by
    rw [head?_append_left hsha]
    intro c hc
    exact not_multi_of_hex (hhex c (head?_mem_list hc))
  have huphex : ∀ c, (upTail up msg).head? = some c → isHexDigitChar c = false := by
    intro c hc
    cases up with
    | none =>
      have hc' : some ' ' = some c := hc
      injection hc' with hc'
      subst hc'
      decide
    | some u =>
      have hc' : some ' ' = some c := hc
      injection hc' with hc'
      subst hc'
      decide
  have hms_up : multispace0 (upTail up msg) = some (upRest up msg, ()) := by
    cases up with
    | none => exact multispace0_space_cons hmsgh
    | some u => exact multispace0_space_cons (head_cons_not_multi (by decide) _)
  refine ⟨ws_parse_name_step hn hnm hnp hshahead, ?_, ?_, not_line_ending_of hr hnl⟩
  · -- sha field
    have hsha1 : takeWhile1 isHexDigitChar (sha ++ upTail up msg) =
        some (upTail up msg, sha) :=
      takeWhile1_append _ hsha hhex huphex
    exact ws_step parse_commit_sha (multispace0_eq_self hshahead) hsha1 hms_up
  · -- upstream field
    cases up with
    | none =>
      have hfail : ptag [ '[' ] (upRest none msg) = none :=
        ptag_single_of_head_ne (hupn rfl)
      have hopt : parse_upstream_branch (upRest none msg) = some (upRest none msg, none) :=
        popt_of_none _ (delimitedP_fail_first _ _ _ hfail)
      exact ws_step parse_upstream_branch (multispace0_eq_self hmsgh) hopt
        (multispace0_eq_self hmsgh)
    | some u =>
      obtain ⟨hune, hucl⟩ := hup u rfl
      have htag1 : ptag [ '[' ] ('[' :: (u ++ (']' :: ' ' :: msg))) =
          some (u ++ (']' :: ' ' :: msg), ()) :=
        ptag_append [ '[' ] (u ++ (']' :: ' ' :: msg))
      have huntil : take_until1 [ ']' ] (u ++ (']' :: ' ' :: msg)) =
          some (']' :: ' ' :: msg, u) :=
        take_until1_close hune hucl
      have htag2 : ptag [ ']' ] (']' :: ' ' :: msg) = some (' ' :: msg, ()) :=
        ptag_append [ ']' ] (' ' :: msg)
      have hopt : parse_upstream_branch ('[' :: (u ++ (']' :: ' ' :: msg))) =
          some (' ' :: msg, some u) :=
        popt_of_some _ (delimitedP_step _ _ _ htag1 huntil htag2)
      exact ws_step parse_upstream_branch
        (multispace0_eq_self (head_cons_not_multi (by decide) _)) hopt
        (multispace0_space_cons hmsgh)

lemma local_roundtrip (b : LocalBranch) (h : b.wfb = true) :
    LocalBranch.fromStr? b.render = some b := by
  obtain ⟨n, cur, sha, up, msg⟩ := b
  obtain ⟨hn, hnm, hnp, hstar, hsha, hhex, hup, hupn, hmsgh, hr, hnl⟩ := localwf_unpack h
  obtain ⟨hB, hC, hD, hE⟩ :=
    local_tail_parse n sha msg up hn hnm hnp hsha hhex hup hupn hmsgh hr hnl
  have hheadn : ∀ c, (n ++ ' ' :: (sha ++ upTail up msg)).head? = some c →
      isMultispace c = false := by
    rw [head?_append_left hn]
    intro c hc
    exact hnm c (head?_mem_list hc)
  have hrender : LocalBranch.render ⟨n, cur, sha, up, msg⟩ =
      (if cur then ['*', ' '] else []) ++ (n ++ ' ' :: (sha ++ upTail up msg)) := by
    cases up <;> cases cur <;> simp [LocalBranch.render, upTail]
  have hA : ws parse_current
      ((if cur then ['*', ' '] else []) ++ (n ++ ' ' :: (sha ++ upTail up msg))) =
      some (n ++ ' ' :: (sha ++ upTail up msg), cur) := by
    cases cur with
    | true =>
      have hpc : parse_current ('*' :: ' ' :: (n ++ ' ' :: (sha ++ upTail up msg))) =
          some (' ' :: (n ++ ' ' :: (sha ++ upTail up msg)), true) :=
        pmap_of_some _ _ (popt_of_some _ (pchar_cons_self '*' _))
      exact ws_step parse_current
        (multispace0_eq_self (head_cons_not_multi (by decide) _)) hpc
        (multispace0_space_cons hheadn)
    | false =>
      have hne : (n ++ ' ' :: (sha ++ upTail up msg)).head? ≠ some '*' := by
        rw [head?_append_left hn]
        exact hstar rfl
      have hpc : parse_current (n ++ ' ' :: (sha ++ upTail up msg)) =
          some (n ++ ' ' :: (sha ++ upTail up msg), false) :=
        pmap_of_some _ _ (popt_of_none _ (pchar_of_head_ne hne))
      exact ws_step parse_current (multispace0_eq_self hheadn) hpc
        (multispace0_eq_self hheadn)
  rw [hrender]
  unfold LocalBranch.fromStr?
  rw [hA]
  simp only [Option.some_bind]
  rw [hB]
  simp only [Option.some_bind]
  rw [hC]
  simp only [Option.some_bind]
  rw [hD]
  simp only [Option.some_bind]
  rw [hE]
  rfl

lemma remotewf_unpack {n : List Char} {ref : RemoteBranchRef}
    (h : (RemoteBranch.mk n ref).wfb = true) :
    n ≠ [] ∧ (∀ c ∈ n, isMultispace c = false) ∧ n.head? ≠ some '(' ∧
    (∀ sha msgr, ref = RemoteBranchRef.Commit sha msgr →
      sha ≠ [] ∧ (∀ c ∈ sha, isHexDigitChar c = true) ∧
      (∀ c, msgr.head? = some c → isMultispace c = false) ∧
      '\r' ∉ msgr ∧ '\n' ∉ msgr) ∧
    (∀ target, ref = RemoteBranchRef.Branch target →
      '\r' ∉ target ∧ '\n' ∉ target) := by
  simp only [RemoteBranch.wfb, Bool.and_eq_true] at h
  obtain ⟨⟨⟨h1, h2⟩, h3⟩, h4⟩ := h
  refine ⟨by simpa using h1, ?_, notHead_spec h3, ?_, ?_⟩
  · intro c hc
    simpa using List.all_eq_true.mp h2 c hc
  · intro sha msgr he
    subst he
    simp only [Bool.and_eq_true] at h4
    obtain ⟨⟨⟨ha, hb⟩, hc⟩, hd⟩ := h4
    refine ⟨by simpa using ha, ?_, ?_, ?_, ?_⟩
    · intro c hcc
      exact List.all_eq_true.mp hb c hcc
    · intro c hcc
      rw [hcc] at hc
      simpa using hc
    · intro hmem
      have := List.all_eq_true.mp hd '\r' hmem
      simp at this
    · intro hmem
      have := List.all_eq_true.mp hd '\n' hmem
      simp at this
  · intro target he
    subst he
    constructor
    · intro hmem
      have := List.all_eq_true.mp h4 '\r' hmem
      simp at this
    · intro hmem
      have := List.all_eq_true.mp h4 '\n' hmem
      simp at this

lemma remote_roundtrip (b : RemoteBranch) (h : b.wfb = true) :
    RemoteBranch.fromStr? b.render = some b := by
  obtain ⟨n, ref⟩ := b
  obtain ⟨hn, hnm, hnp, hcom, hptr⟩ := remotewf_unpack h
  cases ref with
  | Commit sha msgr =>
    obtain ⟨hsha, hhex, hmh, hr, hnl⟩ := hcom sha msgr rfl
    have hrender : RemoteBranch.render ⟨n, RemoteBranchRef.Commit sha msgr⟩ =
        n ++ ' ' :: (sha ++ ' ' :: msgr) := by
      simp [RemoteBranch.render]
    have hshahead : ∀ c, (sha ++ ' ' :: msgr).head? = some c →
        isMultispace c = false := by
      rw [head?_append_left hsha]
      intro c hc
      exact not_multi_of_hex (hhex c (head?_mem_list hc))
    have hB := ws_parse_name_step hn hnm hnp hshahead
    have hsha1 : ws parse_commit_sha (sha ++ ' ' :: msgr) = some (msgr, sha) := by
      refine ws_step _ (multispace0_eq_self hshahead) ?_ (multispace0_space_cons hmh)
      refine takeWhile1_append _ hsha hhex ?_
      intro c hc
      have hc' : some ' ' = some c := hc
      injection hc' with hc'
      subst hc'
      decide
    have hcomm : RemoteBranch.commitRefAlt (sha ++ ' ' :: msgr) =
        some ([], RemoteBranchRef.Commit sha msgr) := by
      unfold RemoteBranch.commitRefAlt
      rw [pbind_of_some _ _ hsha1]
      exact pmap_of_some _ _ (not_line_ending_of hr hnl)
    have href : RemoteBranch.parse_reference (sha ++ ' ' :: msgr) =
        some ([], RemoteBranchRef.Commit sha msgr) := by
      unfold RemoteBranch.parse_reference
      exact alt2_of_some hcomm
    rw [hrender]
    unfold RemoteBranch.fromStr?
    rw [hB]
    simp only [Option.some_bind]
    rw [href]
    rfl
  | Branch target =>
    obtain ⟨hr, hnl⟩ := hptr target rfl
    have hrender : RemoteBranch.render ⟨n, RemoteBranchRef.Branch target⟩ =
        n ++ ' ' :: ('-' :: '>' :: ' ' :: target) := by
      simp [RemoteBranch.render]
    have hB := ws_parse_name_step hn hnm hnp
      (@head_cons_not_multi '-' (by decide) ('>' :: ' ' :: target))
    have hcommfail : RemoteBranch.commitRefAlt ('-' :: '>' :: ' ' :: target) = none := by
      unfold RemoteBranch.commitRefAlt
      refine pbind_of_none _ _ ?_
      have hhx : ∀ c, ('-' :: '>' :: ' ' :: target).head? = some c →
          isHexDigitChar c = false := by
        intro c hc
        have hc' : some '-' = some c := hc
        injection hc' with hc'
        subst hc'
        decide
      exact ws_fail _
        (multispace0_eq_self (@head_cons_not_multi '-' (by decide) ('>' :: ' ' :: target)))
        (takeWhile1_none hhx)
    have hptag : ptag "-> ".data ('-' :: '>' :: ' ' :: target) = some (target, ()) :=
      ptag_append "-> ".data target
    have hpointer : parse_branch_pointer ('-' :: '>' :: ' ' :: target) =
        some ([], target) := by
      unfold parse_branch_pointer precededP
      rw [pbind_of_some _ _ hptag]
      exact not_line_ending_of hr hnl
    have hws : ws parse_branch_pointer ('-' :: '>' :: ' ' :: target) =
        some ([], target) :=
      ws_step _
        (multispace0_eq_self (head_cons_not_multi (by decide) ('>' :: ' ' :: target)))
        hpointer (show multispace0 [] = some ([], ()) from rfl)
    have href : RemoteBranch.parse_reference ('-' :: '>' :: ' ' :: target) =
        some ([], RemoteBranchRef.Branch target) := by
      unfold RemoteBranch.parse_reference
      rw [alt2_of_none hcommfail]
      unfold RemoteBranch.pointerRefAlt
      exact pmap_of_some _ _ hws
    rw [hrender]
    unfold RemoteBranch.fromStr?
    rw [hB]
    simp only [Option.some_bind]
    rw [href]
    rfl

/-- C9 (amended): rendering a well-formed record — name a non-empty
whitespace-free token not starting with `(` (nor `*` when not current), sha a
non-empty hex run, upstream (when present) non-empty and `]`-free, message
free of line endings with no leading whitespace and no leading `[` when there
is no upstream — into the grammar's line form and re-parsing it yields the
original record, for both local and remote records. -/
theorem c9_round_trip :
    (∀ b : LocalBranch, b.wfb = true → LocalBranch.fromStr? b.render = some b) ∧
    (∀ b : RemoteBranch, b.wfb = true → RemoteBranch.fromStr? b.render = some b) :=
  ⟨local_roundtrip, remote_roundtrip⟩

/-- C9 witness: the two scenario records round-trip. -/
theorem c9_round_trip_witness :
    LocalBranch.wfb ⟨"main".data, true, "a1b2c3d".data, some "origin/main".data,
      "Initial commit".data⟩ = true ∧
    LocalBranch.fromStr? (LocalBranch.render ⟨"main".data, true, "a1b2c3d".data,
      some "origin/main".data, "Initial commit".data⟩) =
      some ⟨"main".data, true, "a1b2c3d".data, some "origin/main".data,
        "Initial commit".data⟩ ∧
    RemoteBranch.wfb ⟨"origin/HEAD".data, RemoteBranchRef.Branch "origin/main".data⟩ =
      true ∧
    RemoteBranch.fromStr? (RemoteBranch.render ⟨"origin/HEAD".data,
      RemoteBranchRef.Branch "origin/main".data⟩) =
      some ⟨"origin/HEAD".data, RemoteBranchRef.Branch "origin/main".data⟩ :=
  ⟨by decide, c9_round_trip.1 _ (by decide), by decide, c9_round_trip.2 _ (by decide)⟩

/-- C9 counterexample: for the (not well-formed) record with name `"a b"`,
sha `"1"`, no upstream and empty message, rendering and re-parsing yields a
different record (name `"a"`, sha `"b"`, message `"1 "`), so the round-trip
property does not hold for every record. -/
theorem c9_round_trip_counterexample :
    LocalBranch.fromStr? (LocalBranch.render ⟨"a b".data, false, "1".data, none, []⟩) ≠
      some ⟨"a b".data, false, "1".data, none, []⟩ := by
  decide

end ZjGit
